import Mathlib

/-!
Verification development for the secure-sum aggregation tutorial
(`src/main.rs`, `src/client.rs`, `src/server.rs`).

All machine arithmetic in the source is `Wrapping<u32>`: addition and
subtraction modulo 2^32.  We embed values as `Nat` and make the wrap-around
explicit with `% W` where `W = 2^32`.
-/

namespace SecAgg

/-- The wrap-around modulus: the source works in `Wrapping<u32>`, i.e. mod 2^32. -/
def W : Nat := 4294967296

theorem W_eq : W = 2 ^ 32 := by norm_num [W]

theorem W_val : W = 4294967296 := rfl

theorem W_pos : 0 < W := by norm_num [W]

/-- `Wrapping<u32>` addition: `a + b` mod 2^32. -/
def wadd (a b : Nat) : Nat := (a + b) % W

/-- `Wrapping<u32>` subtraction: `a - b` mod 2^32, embedded on `Nat` as
`(a + (W - b % W)) % W` (agrees with two's-complement wrap-around for `a b < W`). -/
def wsub (a b : Nat) : Nat := (a + (W - b % W)) % W

theorem wadd_lt (a b : Nat) : wadd a b < W := Nat.mod_lt _ W_pos

theorem wsub_lt (a b : Nat) : wsub a b < W := Nat.mod_lt _ W_pos

theorem wadd_mod (a b : Nat) : wadd a b % W = (a + b) % W := by
  simp only [wadd, W_val]
  omega

/-- A single mask exchange is zero-sum mod `W`: subtracting `m` on one side and
adding `m` on the other preserves the pair sum. -/
theorem wsub_wadd_pair (a b m : Nat) :
    (wsub a m + wadd b m) % W = (a + b) % W := by
  simp only [wsub, wadd, W_val]
  omega

/-! ## Embedding of `src/main.rs` (in-process model)

`struct Client { value, masked_value, name }` with `Wrapping<u32>` fields;
`struct Server { aggregate_value, clients }`.  Randomness (`thread_rng`) is
injected: each random mask the source draws becomes an explicit `Nat`
argument. -/

namespace MainRs

open SecAgg

/-- `main.rs` `struct Client`: `value` and `masked_value` are `Wrapping<u32>`. -/
structure Client where
  value : Nat
  masked_value : Nat
  name : String
deriving DecidableEq

/-- `Client::new(name, sending_value)`: `masked_value` starts equal to `value`. -/
def Client.new (name : String) (sending_value : Nat) : Client :=
  { value := sending_value, name := name, masked_value := sending_value }

/-- `Client::add_to_value`: `self.masked_value = self.masked_value + masking_val`. -/
def Client.add_to_value (c : Client) (masking_val : Nat) : Client :=
  { c with masked_value := wadd c.masked_value masking_val }

/-- `Client::interact_with_others`: for each collaborator, draw a mask `m`
(injected via `masks`), set `self.masked_value -= m`, and call
`collaborator.add_to_value(m)`.  Returns the updated self and the updated
collaborator list (in the original order, as the source mutates in place). -/
def Client.interact_with_others :
    Client → List Client → List Nat → Client × List Client
  | self, [], _ => (self, [])
  | self, o :: os, [] => (self, o :: os)
  | self, o :: os, m :: ms =>
    let self1 : Client := { self with masked_value := wsub self.masked_value m }
    let o1 := o.add_to_value m
    let rest := Client.interact_with_others self1 os ms
    (rest.1, o1 :: rest.2)

/-- `Client::share_value`: returns `masked_value`, no side effect. -/
def Client.share_value (c : Client) : Nat := c.masked_value

/-- Sum of the `masked_value` fields (plain `Nat` sum; compare mod `W`). -/
def sumMasked : List Client → Nat
  | [] => 0
  | c :: cs => c.masked_value + sumMasked cs

/-- Sum of the original `value` fields. -/
def sumValue : List Client → Nat
  | [] => 0
  | c :: cs => c.value + sumValue cs

/-- `Vec::remove(i)`: returns the removed element and the remaining list, or
`none` when `i` is out of bounds (where the Rust call would be an index panic). -/
def listRemove {α : Type} : List α → Nat → Option (α × List α)
  | [], _ => none
  | x :: xs, 0 => some (x, xs)
  | x :: xs, i + 1 =>
    match listRemove xs i with
    | none => none
    | some (y, ys) => some (y, x :: ys)

/-- `Vec::insert(i, y)` for the in-bounds indices the source uses (totalized by
appending at the end when the list is too short, a case the source never hits). -/
def listInsert {α : Type} : List α → Nat → α → List α
  | xs, 0, y => y :: xs
  | [], _ + 1, y => [y]
  | x :: xs, i + 1, y => x :: listInsert xs i y

/-- Body of the `Server::initialize` loop: `clients.remove(i)`, run
`interact_with_others` against the rest, `clients.insert(i, ...)`. -/
def interactAt (clients : List Client) (i : Nat) (masks : List Nat) :
    List Client :=
  match listRemove clients i with
  | none => clients
  | some (c, rest) =>
    let res := Client.interact_with_others c rest masks
    listInsert res.2 i res.1

/-- `main.rs` `struct Server`. -/
structure Server where
  aggregate_value : Nat
  clients : List Client
deriving DecidableEq

/-- `Server::initialize` (named `initializeRound` here): for
`i in 0..self.clients.len()` do the remove/interact/insert step; the masks
drawn in iteration `i` are `allMasks i`. -/
def Server.initializeRound (s : Server) (allMasks : Nat → List Nat) : Server :=
  { s with
    clients :=
      (List.range s.clients.length).foldl
        (fun cs i => interactAt cs i (allMasks i)) s.clients }

/-- `Server::aggregate`: fold `ret += clients[i].share_value()` from
`Wrapping(0)`, store the result in `aggregate_value`, and return it. -/
def Server.aggregate (s : Server) : Nat × Server :=
  let ret := s.clients.foldl (fun acc c => wadd acc c.share_value) 0
  (ret, { s with aggregate_value := ret })

/-- An arbitrary interleaving of interaction steps: each entry `(i, masks)`
performs the remove/interact/insert step at index `i` with the given masks
(possibly only a prefix of a client's full round). -/
def applySteps (clients : List Client) (steps : List (Nat × List Nat)) :
    List Client :=
  steps.foldl (fun cs st => interactAt cs st.1 st.2) clients

/-! ### Conservation lemmas -/

/-- One full or partial `interact_with_others` call preserves the combined
masked sum of the caller and its collaborators, mod `W`. -/
theorem interact_sum (os : List Client) (self : Client) (ms : List Nat) :
    ((Client.interact_with_others self os ms).1.masked_value
      + sumMasked (Client.interact_with_others self os ms).2) % W
    = (self.masked_value + sumMasked os) % W := by
  induction os generalizing self ms with
  | nil => simp [Client.interact_with_others, sumMasked]
  | cons o os ih =>
    cases ms with
    | nil => simp [Client.interact_with_others]
    | cons m ms =>
      simp only [Client.interact_with_others, sumMasked]
      have h := ih { self with masked_value := wsub self.masked_value m } ms
      simp only [Client.add_to_value, wadd, wsub, W_val] at h ⊢
      omega

theorem sumMasked_listRemove (l : List Client) :
    ∀ i c rest, listRemove l i = some (c, rest) →
      sumMasked l = c.masked_value + sumMasked rest := by
  induction l with
  | nil => intro i c rest h; simp [listRemove] at h
  | cons x xs ih =>
    intro i c rest h
    cases i with
    | zero =>
      simp only [listRemove, Option.some.injEq, Prod.mk.injEq] at h
      obtain ⟨hc, hrest⟩ := h
      subst hc; subst hrest
      rfl
    | succ i =>
      simp only [listRemove] at h
      cases hr : listRemove xs i with
      | none => rw [hr] at h; simp at h
      | some p =>
        obtain ⟨y, ys⟩ := p
        rw [hr] at h
        simp only [Option.some.injEq, Prod.mk.injEq] at h
        obtain ⟨hc, hrest⟩ := h
        subst hrest
        have hxs := ih i y ys hr
        subst hc
        simp only [sumMasked]
        omega

theorem sumMasked_listInsert (l : List Client) (i : Nat) (c : Client) :
    sumMasked (listInsert l i c) = c.masked_value + sumMasked l := by
  induction l generalizing i with
  | nil => cases i <;> simp [listInsert, sumMasked]
  | cons x xs ih =>
    cases i with
    | zero => simp [listInsert, sumMasked]
    | succ i =>
      simp only [listInsert, sumMasked, ih i]
      omega

/-- One loop iteration of `Server::initialize` preserves the masked sum mod `W`. -/
theorem interactAt_sum (cs : List Client) (i : Nat) (ms : List Nat) :
    sumMasked (interactAt cs i ms) % W = sumMasked cs % W := by
  unfold interactAt
  cases hr : listRemove cs i with
  | none => rfl
  | some p =>
    obtain ⟨c, rest⟩ := p
    simp only
    rw [sumMasked_listInsert, sumMasked_listRemove cs i c rest hr]
    exact interact_sum rest c ms

theorem foldl_interactAt_sum (idxs : List Nat) (f : Nat → List Nat)
    (cs : List Client) :
    sumMasked (idxs.foldl (fun cs2 i => interactAt cs2 i (f i)) cs) % W
      = sumMasked cs % W := by
  induction idxs generalizing cs with
  | nil => rfl
  | cons i is ih =>
    simpa [List.foldl] using
      (ih (interactAt cs i (f i))).trans (interactAt_sum cs i (f i))

theorem applySteps_sum (steps : List (Nat × List Nat)) (cs : List Client) :
    sumMasked (applySteps cs steps) % W = sumMasked cs % W := by
  induction steps generalizing cs with
  | nil => rfl
  | cons st sts ih =>
    simpa [applySteps, List.foldl] using
      (ih (interactAt cs st.1 st.2)).trans (interactAt_sum cs st.1 st.2)

theorem sumMasked_eq_sumValue (cs : List Client)
    (h : ∀ c ∈ cs, c.masked_value = c.value) : sumMasked cs = sumValue cs := by
  induction cs with
  | nil => rfl
  | cons c cs ih =>
    simp only [sumMasked, sumValue]
    rw [h c (List.mem_cons_self c cs),
      ih (fun d hd => h d (List.mem_cons_of_mem c hd))]

/-! ### Remove/insert lemmas -/

theorem listRemove_of_lt {α : Type} (l : List α) (i : Nat) (h : i < l.length) :
    ∃ c rest, listRemove l i = some (c, rest) := by
  induction l generalizing i with
  | nil => simp at h
  | cons x xs ih =>
    cases i with
    | zero => exact ⟨x, xs, rfl⟩
    | succ i =>
      obtain ⟨c, rest, hr⟩ := ih i (by simp only [List.length_cons] at h; omega)
      exact ⟨c, x :: rest, by simp only [listRemove, hr]⟩

theorem listInsert_listRemove {α : Type} (l : List α) :
    ∀ i c rest, listRemove l i = some (c, rest) → listInsert rest i c = l := by
  induction l with
  | nil => intro i c rest h; simp [listRemove] at h
  | cons x xs ih =>
    intro i c rest h
    cases i with
    | zero =>
      simp only [listRemove, Option.some.injEq, Prod.mk.injEq] at h
      obtain ⟨hc, hrest⟩ := h
      subst hc; subst hrest
      cases xs <;> rfl
    | succ i =>
      simp only [listRemove] at h
      cases hr : listRemove xs i with
      | none => rw [hr] at h; simp at h
      | some p =>
        obtain ⟨y, ys⟩ := p
        rw [hr] at h
        simp only [Option.some.injEq, Prod.mk.injEq] at h
        obtain ⟨hc, hrest⟩ := h
        subst hrest; subst hc
        simp only [listInsert, ih i _ _ hr]

theorem listRemove_mem {α : Type} (l : List α) :
    ∀ i c rest, listRemove l i = some (c, rest) → c ∈ l := by
  induction l with
  | nil => intro i c rest h; simp [listRemove] at h
  | cons x xs ih =>
    intro i c rest h
    cases i with
    | zero =>
      simp only [listRemove, Option.some.injEq, Prod.mk.injEq] at h
      exact h.1 ▸ List.mem_cons_self x xs
    | succ i =>
      simp only [listRemove] at h
      cases hr : listRemove xs i with
      | none => rw [hr] at h; simp at h
      | some p =>
        obtain ⟨y, ys⟩ := p
        rw [hr] at h
        simp only [Option.some.injEq, Prod.mk.injEq] at h
        exact h.1 ▸ List.mem_cons_of_mem x (ih i y ys hr)

theorem listRemove_lt {α : Type} (l : List α) :
    ∀ i c rest, listRemove l i = some (c, rest) → i < l.length := by
  induction l with
  | nil => intro i c rest h; simp [listRemove] at h
  | cons x xs ih =>
    intro i c rest h
    cases i with
    | zero => simp
    | succ i =>
      simp only [listRemove] at h
      cases hr : listRemove xs i with
      | none => rw [hr] at h; simp at h
      | some p =>
        obtain ⟨y, ys⟩ := p
        simp only [List.length_cons]
        exact Nat.succ_lt_succ (ih i y ys hr)

/-- On a duplicate-free list, the element removed at an index does not occur
among the remaining elements. -/
theorem listRemove_nodup {α : Type} (l : List α) :
    ∀ i c rest, listRemove l i = some (c, rest) → l.Nodup → c ∉ rest := by
  induction l with
  | nil => intro i c rest h; simp [listRemove] at h
  | cons x xs ih =>
    intro i c rest h hnd
    rw [List.nodup_cons] at hnd
    obtain ⟨hx, hxs⟩ := hnd
    cases i with
    | zero =>
      simp only [listRemove, Option.some.injEq, Prod.mk.injEq] at h
      obtain ⟨hc, hrest⟩ := h
      subst hc; subst hrest
      exact hx
    | succ i =>
      simp only [listRemove] at h
      cases hr : listRemove xs i with
      | none => rw [hr] at h; simp at h
      | some p =>
        obtain ⟨y, ys⟩ := p
        rw [hr] at h
        simp only [Option.some.injEq, Prod.mk.injEq] at h
        obtain ⟨hc, hrest⟩ := h
        subst hrest; subst hc
        intro hmem
        rcases List.mem_cons.mp hmem with h1 | h2
        · exact hx (h1 ▸ listRemove_mem xs i y ys hr)
        · exact ih i y ys hr hxs h2

/-! ### Aggregation lemmas -/

theorem foldl_wadd_mod (l : List Client) (acc : Nat) :
    (l.foldl (fun a c => wadd a c.share_value) acc) % W
      = (acc + sumMasked l) % W := by
  induction l generalizing acc with
  | nil => simp [sumMasked]
  | cons c cs ih =>
    simp only [List.foldl, sumMasked]
    rw [ih (wadd acc c.share_value)]
    simp only [Client.share_value, wadd, W_val]
    omega

theorem foldl_wadd_lt (l : List Client) (acc : Nat) (h : acc < W) :
    l.foldl (fun a c => wadd a c.share_value) acc < W := by
  induction l generalizing acc with
  | nil => exact h
  | cons c cs ih => exact ih _ (wadd_lt _ _)

/-- `Server::aggregate` returns exactly the wrap-around sum of the clients'
shared (masked) values. -/
theorem aggregate_fst (s : Server) :
    (Server.aggregate s).1 = sumMasked s.clients % W := by
  show s.clients.foldl (fun a c => wadd a c.share_value) 0
      = sumMasked s.clients % W
  cases hc : s.clients with
  | nil => simp [sumMasked]
  | cons c cs =>
    have hlt : List.foldl (fun a c => wadd a c.share_value) (wadd 0 c.share_value) cs < W :=
      foldl_wadd_lt cs _ (wadd_lt _ _)
    have hm := foldl_wadd_mod (c :: cs) 0
    simp only [List.foldl] at hm ⊢
    simp only [W_val] at hm hlt ⊢
    omega

theorem aggregate_clients (s : Server) :
    (Server.aggregate s).2.clients = s.clients := rfl

theorem aggregate_sets_field (s : Server) :
    (Server.aggregate s).2.aggregate_value = (Server.aggregate s).1 := rfl

end MainRs

/-! ## Embedding of `src/client.rs` (warp client node)

The handler `handlers::interact_with_others` locks the client once, then for
each collaborator port draws a mask, subtracts it from `masked_value`, and
POSTs `/maskbyadding/{mask}` to the peer.  The send result `res` is bound but
never inspected; the handler always replies `"Interaction successful"`.
Randomness is injected as the `masks` list; the network is injected as a
`sendOk : Nat → Bool` oracle (whether the POST to a port succeeds), which the
handler ignores exactly as the source ignores `res`. -/

namespace ClientRs

/-- The per-peer loop of `handlers::interact_with_others`.  Returns the final
`masked_value` and, for each peer in order, the record
`(port, mask, masked_value at the moment of the send)` — the third component
shows the subtraction is already applied when the POST is issued. -/
def interactLoop : Nat → List Nat → List Nat → Nat × List (Nat × Nat × Nat)
  | masked, [], _ => (masked, [])
  | masked, _ :: _, [] => (masked, [])
  | masked, p :: ps, m :: ms =>
    let masked1 := wsub masked m
    let rest := interactLoop masked1 ps ms
    (rest.1, (p, m, masked1) :: rest.2)

/-- `handlers::interact_with_others`: run the loop and reply
`"Interaction successful"`.  `sendOk` reports each POST's outcome; the source
binds it to `res` and never reads it, so it does not occur in the body. -/
def interact_with_others_handler (masked : Nat) (port_list masks : List Nat)
    (sendOk : Nat → Bool) : Nat × List (Nat × Nat × Nat) × String :=
  let res := interactLoop masked port_list masks
  (res.1, res.2, "Interaction successful")

/-- `handlers::mask_by_adding`: `masked_value += masking_val` under the lock. -/
def mask_by_adding_handler (masked : Nat) (masking_val : Nat) : Nat :=
  wadd masked masking_val

/-- `handlers::share_val`: replies with the current `masked_value`, unchanged. -/
def share_val_handler (masked : Nat) : Nat × Nat :=
  (masked, masked)

/-- The running local values `wsub (wsub masked m1) m2, ...` after each
successive subtraction: the value the node holds when each POST goes out. -/
def runningSubs : Nat → List Nat → List Nat
  | _, [] => []
  | a, m :: ms => wsub a m :: runningSubs (wsub a m) ms

/-! ### Lock-event traces

Each warp handler in `client.rs` opens with `client_async.lock().await` and
the guard drops when the handler returns, so the lock/network structure of
each handler is a straight-line event trace. -/

/-- Events visible in a handler run: lock acquire/release, the two mutations,
the read, and an outbound network send. -/
inductive LockEv where
  | acquire : LockEv
  | release : LockEv
  | subtractMask : Nat → LockEv
  | addMask : Nat → LockEv
  | readMasked : LockEv
  | send : Nat → Nat → LockEv
deriving DecidableEq

/-- Loop body events of `handlers::interact_with_others`: subtract, then POST,
for each (port, mask) pair. -/
def interactEvents : List Nat → List Nat → List LockEv
  | p :: ps, m :: ms =>
    LockEv.subtractMask m :: LockEv.send p m :: interactEvents ps ms
  | _, _ => []

/-- Trace of `handlers::interact_with_others`: one `lock().await` at entry,
the guard dropped only at return — after every subtraction and every send. -/
def interact_trace (ports masks : List Nat) : List LockEv :=
  LockEv.acquire :: (interactEvents ports masks ++ [LockEv.release])

/-- Trace of `handlers::mask_by_adding`: lock, add, unlock. -/
def mask_by_adding_trace (m : Nat) : List LockEv :=
  [LockEv.acquire, LockEv.addMask m, LockEv.release]

/-- Trace of `handlers::share_val`: lock, read, unlock. -/
def share_val_trace : List LockEv :=
  [LockEv.acquire, LockEv.readMasked, LockEv.release]

/-- Number of lock acquisitions in a trace. -/
def countAcquires : List LockEv → Nat
  | [] => 0
  | LockEv.acquire :: es => countAcquires es + 1
  | _ :: es => countAcquires es

/-- Whether some network send happens while the lock is held (`d` = current
lock depth). -/
def sendWhileLocked : List LockEv → Nat → Bool
  | [], _ => false
  | LockEv.acquire :: es, d => sendWhileLocked es (d + 1)
  | LockEv.release :: es, d => sendWhileLocked es (d - 1)
  | LockEv.send _ _ :: es, d =>
    if 0 < d then true else sendWhileLocked es d
  | _ :: es, d => sendWhileLocked es d

/-- The locking discipline the specification ascribes to
`runInteractionRound`: the lock is taken once per peer iteration (so as many
acquisitions as peers) and is never held across a network call. -/
def perPeerLocking (ports masks : List Nat) : Prop :=
  countAcquires (interact_trace ports masks) = ports.length
  ∧ sendWhileLocked (interact_trace ports masks) 0 = false

/-! ### Lemmas about the interaction handler -/

theorem interactLoop_fst (ps : List Nat) (masked : Nat) (ms : List Nat) :
    (interactLoop masked ps ms).1
      = List.foldl wsub masked (ms.take ps.length) := by
  induction ps generalizing masked ms with
  | nil => simp [interactLoop]
  | cons p ps ih =>
    cases ms with
    | nil => simp [interactLoop]
    | cons m ms =>
      simp only [interactLoop, List.length_cons, List.take_succ_cons,
        List.foldl_cons]
      exact ih (wsub masked m) ms

theorem interactLoop_sends (ps : List Nat) (masked : Nat) (ms : List Nat) :
    ((interactLoop masked ps ms).2.map (fun e => e.1) = ps.take ms.length)
    ∧ ((interactLoop masked ps ms).2.map (fun e => e.2.1)
        = ms.take ps.length)
    ∧ ((interactLoop masked ps ms).2.map (fun e => e.2.2)
        = runningSubs masked (ms.take ps.length)) := by
  induction ps generalizing masked ms with
  | nil => simp [interactLoop, runningSubs]
  | cons p ps ih =>
    cases ms with
    | nil => simp [interactLoop, runningSubs]
    | cons m ms =>
      obtain ⟨h1, h2, h3⟩ := ih (wsub masked m) ms
      simp only [interactLoop, List.map_cons, List.length_cons,
        List.take_succ_cons, runningSubs, h1, h2, h3]
      exact ⟨trivial, trivial, trivial⟩

/-- The handler's whole output is a constant function of the send outcomes:
the source binds the send result and never reads it. -/
theorem interact_handler_ignores_network (masked : Nat) (ps ms : List Nat)
    (f g : Nat → Bool) :
    interact_with_others_handler masked ps ms f
      = interact_with_others_handler masked ps ms g := rfl

/-! ### Lemmas about the lock traces -/

theorem countAcquires_interactEvents (ps ms : List Nat) (tail : List LockEv) :
    countAcquires (interactEvents ps ms ++ tail) = countAcquires tail := by
  induction ps generalizing ms with
  | nil => simp [interactEvents]
  | cons p ps ih =>
    cases ms with
    | nil => simp [interactEvents]
    | cons m ms =>
      simp only [interactEvents, List.cons_append, countAcquires]
      exact ih ms

/-- `handlers::interact_with_others` acquires the lock exactly once, for the
whole round. -/
theorem interact_trace_one_acquire (ps ms : List Nat) :
    countAcquires (interact_trace ps ms) = 1 := by
  simp only [interact_trace, countAcquires, countAcquires_interactEvents]

/-- As soon as there is at least one peer (and a mask for it), the POST to
that peer happens while the handler still holds the lock. -/
theorem interact_trace_send_under_lock (p m : Nat) (ps ms : List Nat) :
    sendWhileLocked (interact_trace (p :: ps) (m :: ms)) 0 = true := by
  simp [interact_trace, interactEvents, sendWhileLocked]

end ClientRs

/-! ## Embedding of `src/server.rs` (warp aggregator node)

`struct Server { client_ports }`.  `handlers::initialize` stores the request's
`port_list`, then for `i in 0..num_collaborators` removes the `i`-th port,
PUTs `/interact` to it with the remaining list (and `num_collaborators - 1`),
and reinserts it.  `Vec::remove(i)` with `i` out of bounds is an index panic,
modelled as `none`.  `handlers::aggregate_val` GETs `/sharevalue` from every
stored port, `unwrap`s the response and its `u32` parse (a failure of either
is a panic, modelled as `none`), and folds with wrap-around addition from 0. -/

namespace ServerRs

/-- `server.rs` `struct Server`. -/
structure Server where
  client_ports : List Nat
deriving DecidableEq

/-- `models::new_Server`: empty roster. -/
def new_Server : Server := { client_ports := [] }

/-- The `handlers::initialize` loop over the iteration indices `idxs`
(the source iterates `0..num_collaborators`, a range fixed at loop entry).
Per index `i`: `port_list.remove(i)` (panic — `none` — when out of bounds),
send `/interact` to the removed port with the remaining ports and
`cnt - 1` as the collaborator count, then `insert(i, ...)` it back.
Returns the final port list and the messages `(target, peers, count)` sent. -/
def initializeLoop (cnt : Nat) :
    List Nat → List Nat → Option (List Nat × List (Nat × List Nat × Nat))
  | [], ports => some (ports, [])
  | i :: rest, ports =>
    match MainRs.listRemove ports i with
    | none => none
    | some (c, peers) =>
      match initializeLoop cnt rest (MainRs.listInsert peers i c) with
      | none => none
      | some (fin, msgs) => some (fin, (c, peers, cnt - 1) :: msgs)

/-- `handlers::initialize`: overwrite `client_ports` with the request's
`port_list`, run the loop, reply with the final (restored) port list.
Returns `none` where the source handler would hit an index panic. -/
def initialize_handler (srv : Server) (port_list : List Nat)
    (num_collaborators : Nat) :
    Option (Server × List (Nat × List Nat × Nat) × List Nat) :=
  match initializeLoop num_collaborators (List.range num_collaborators)
      port_list with
  | none => none
  | some (fin, msgs) => some ({ client_ports := port_list }, msgs, fin)

/-- Decimal-digit run: `none` as soon as a non-digit appears. -/
def parseDigits : List Char → Nat → Option Nat
  | [], acc => some acc
  | c :: cs, acc =>
    if c.isDigit then parseDigits cs (acc * 10 + (c.toNat - 48)) else none

/-- `str::parse::<u32>()` on a response body: an optional leading `+`, then a
nonempty run of decimal digits whose value fits in a `u32`. -/
def parseU32 (s : String) : Option Nat :=
  let ds := match s.data with
    | '+' :: c :: cs => c :: cs
    | l => l
  match ds with
  | [] => none
  | l =>
    match parseDigits l 0 with
    | none => none
    | some n => if n < W then some n else none

/-- The `handlers::aggregate_val` loop: GET `/sharevalue` from each port
(`responses p = none` models an unreachable peer — `res.unwrap()` panics),
parse the body (`parse::<u32>().unwrap()` panics on failure), and fold with
`wadd` from the accumulator.  Returns the sum and the ports actually read. -/
def aggLoop : List Nat → (Nat → Option String) → Nat → Option (Nat × List Nat)
  | [], _, acc => some (acc, [])
  | p :: ps, resp, acc =>
    match resp p with
    | none => none
    | some body =>
      match parseU32 body with
      | none => none
      | some v =>
        match aggLoop ps resp (wadd acc v) with
        | none => none
        | some (r, reads) => some (r, p :: reads)

/-- `handlers::aggregate_val`: fold over the stored roster starting from 0. -/
def aggregate_val_handler (srv : Server) (responses : Nat → Option String) :
    Option (Nat × List Nat) :=
  aggLoop srv.client_ports responses 0

/-! ### Lemmas about the initialize loop -/

/-- When every iteration index is in bounds, the loop completes: the port list
is restored to its original value, and the `k`-th message goes to the port at
index `k` with peer list "`ports` minus that entry" and count `cnt - 1`. -/
theorem initializeLoop_ok (cnt : Nat) (idxs : List Nat) (ports : List Nat)
    (h : ∀ i ∈ idxs, i < ports.length) :
    ∃ msgs : List (Nat × List Nat × Nat),
      initializeLoop cnt idxs ports = some (ports, msgs)
      ∧ msgs.length = idxs.length
      ∧ (∀ (k i : Nat), idxs[k]? = some i →
          ∀ c rest, MainRs.listRemove ports i = some (c, rest) →
            msgs[k]? = some (c, rest, cnt - 1))
      ∧ (∀ m ∈ msgs, ∃ i, i ∈ idxs ∧
          MainRs.listRemove ports i = some (m.1, m.2.1) ∧ m.2.2 = cnt - 1) := by
  induction idxs with
  | nil =>
    refine ⟨[], rfl, rfl, ?_, ?_⟩
    · intro k i hk; simp at hk
    · intro m hm; simp at hm
  | cons i idxs ih =>
    have hi : i < ports.length := h i (List.mem_cons_self i idxs)
    obtain ⟨c, rest, hr⟩ := MainRs.listRemove_of_lt ports i hi
    obtain ⟨msgs, hloop, hlen, hget, hall⟩ :=
      ih (fun j hj => h j (List.mem_cons_of_mem i hj))
    refine ⟨(c, rest, cnt - 1) :: msgs, ?_, ?_, ?_, ?_⟩
    · simp only [initializeLoop, hr,
        MainRs.listInsert_listRemove ports i c rest hr, hloop]
    · simp [hlen]
    · intro k j hk c2 rest2 hr2
      cases k with
      | zero =>
        simp only [List.getElem?_cons_zero, Option.some.injEq] at hk
        subst hk
        rw [hr] at hr2
        simp only [Option.some.injEq, Prod.mk.injEq] at hr2
        obtain ⟨hc2, hrest2⟩ := hr2
        subst hc2; subst hrest2
        simp
      | succ k =>
        simp only [List.getElem?_cons_succ] at hk ⊢
        exact hget k j hk c2 rest2 hr2
    · intro m hm
      rcases List.mem_cons.mp hm with h1 | h2
      · subst h1
        exact ⟨i, List.mem_cons_self i idxs, by simp [hr]⟩
      · obtain ⟨j, hj, hrj, hc⟩ := hall m h2
        exact ⟨j, List.mem_cons_of_mem i hj, hrj, hc⟩

/-! ### Lemmas about the aggregation loop -/

/-- When every port responds with a body that parses, the aggregation loop
reads every port in roster order and folds their values with `wadd`. -/
theorem aggLoop_spec (resp : Nat → Option String) (vals : Nat → Nat) :
    ∀ (ports : List Nat) (acc : Nat),
      (∀ p ∈ ports, ∃ body, resp p = some body
          ∧ parseU32 body = some (vals p)) →
      aggLoop ports resp acc
        = some (ports.foldl (fun a p => wadd a (vals p)) acc, ports) := by
  intro ports
  induction ports with
  | nil => intro acc h; rfl
  | cons p ps ih =>
    intro acc h
    obtain ⟨body, hrp, hp⟩ := h p (List.mem_cons_self p ps)
    simp only [aggLoop, hrp, hp]
    rw [ih (wadd acc (vals p)) (fun q hq => h q (List.mem_cons_of_mem p hq))]
    simp [List.foldl_cons]

end ServerRs

/-! ## The claims -/

/-- Claim C1: for any roster of clients with arbitrary initial values (each
created with `masked_value = value`), after a fully-completed interaction
round (`Server::initialize` with one mask drawn per other client, the masks
arbitrary), the sum of all `masked_value`s mod 2^32 equals the sum of all
`value`s mod 2^32; moreover the equality already holds after any sequence of
(possibly partial) pairwise-exchange steps. -/
theorem claim_C1_conservation (clients : List MainRs.Client) (a : Nat)
    (hinit : ∀ c ∈ clients, c.masked_value = c.value)
    (allMasks : Nat → List Nat)
    (hfull : ∀ i, (allMasks i).length = clients.length - 1) :
    MainRs.sumMasked
        ((MainRs.Server.mk a clients).initializeRound allMasks).clients % 2 ^ 32
      = MainRs.sumValue clients % 2 ^ 32
    ∧ ∀ steps : List (Nat × List Nat),
        MainRs.sumMasked (MainRs.applySteps clients steps) % 2 ^ 32
          = MainRs.sumValue clients % 2 ^ 32 := by
  simp only [← W_eq]
  constructor
  · simp only [MainRs.Server.initializeRound]
    rw [MainRs.foldl_interactAt_sum, MainRs.sumMasked_eq_sumValue clients hinit]
  · intro steps
    rw [MainRs.applySteps_sum, MainRs.sumMasked_eq_sumValue clients hinit]

/-- Witness for C1: a concrete 3-client roster with values 5, 7, 9 and
concrete masks. -/
theorem claim_C1_conservation_witness :
    MainRs.sumMasked ((MainRs.Server.mk 0 [MainRs.Client.new "Client #1" 5,
        MainRs.Client.new "Client #2" 7,
        MainRs.Client.new "Client #3" 9]).initializeRound
          (fun _ => [4294967295, 2])).clients % 2 ^ 32
      = MainRs.sumValue [MainRs.Client.new "Client #1" 5,
          MainRs.Client.new "Client #2" 7,
          MainRs.Client.new "Client #3" 9] % 2 ^ 32 :=
  (claim_C1_conservation [MainRs.Client.new "Client #1" 5,
      MainRs.Client.new "Client #2" 7, MainRs.Client.new "Client #3" 9] 0
    (by decide) (fun _ => [4294967295, 2]) (fun _ => rfl)).1

/-- Claim C2: a single masking step of the interaction round from client `A`
to peer `B` with mask `m` sets `A.masked_value := A.masked_value - m` and
applies `B.add_to_value m`, and the pair sum mod 2^32 is unchanged, for every
value of `m`. -/
theorem claim_C2_pair_zero_sum (A B : MainRs.Client) (m : Nat) :
    MainRs.Client.interact_with_others A [B] [m]
      = ({ A with masked_value := wsub A.masked_value m },
         [B.add_to_value m])
    ∧ (wsub A.masked_value m + (B.add_to_value m).masked_value) % 2 ^ 32
        = (A.masked_value + B.masked_value) % 2 ^ 32 := by
  refine ⟨rfl, ?_⟩
  simp only [MainRs.Client.add_to_value, ← W_eq]
  exact wsub_wadd_pair A.masked_value B.masked_value m

/-- Claim C3: `aggregate` reads each roster client's shared value in roster
order and folds with wrap-around addition from 0 (shown for `main.rs`'s
`Server::aggregate` against the masked sum, and for `server.rs`'s
`aggregate_val` handler, which also reads exactly the roster ports in order);
and for 3 clients with original values 5, 7, 9, after a full round
`aggregate` returns 21 whatever masks were drawn. -/
theorem claim_C3_aggregate :
    (∀ s : MainRs.Server,
      (MainRs.Server.aggregate s).1 = MainRs.sumMasked s.clients % 2 ^ 32)
    ∧ (∀ (ports : List Nat) (resp : Nat → Option String) (vals : Nat → Nat),
        (∀ p ∈ ports, ∃ body, resp p = some body
            ∧ ServerRs.parseU32 body = some (vals p)) →
        ServerRs.aggregate_val_handler { client_ports := ports } resp
          = some (ports.foldl (fun acc p => wadd acc (vals p)) 0, ports))
    ∧ (∀ allMasks : Nat → List Nat,
        (MainRs.Server.aggregate
          ((MainRs.Server.mk 0 [MainRs.Client.new "Client #1" 5,
            MainRs.Client.new "Client #2" 7,
            MainRs.Client.new "Client #3" 9]).initializeRound allMasks)).1 = 21) := by
  refine ⟨?_, ?_, ?_⟩
  · intro s
    rw [← W_eq]
    exact MainRs.aggregate_fst s
  · intro ports resp vals h
    exact ServerRs.aggLoop_spec resp vals ports 0 h
  · intro allMasks
    rw [MainRs.aggregate_fst]
    simp only [MainRs.Server.initializeRound]
    exact (MainRs.foldl_interactAt_sum _ allMasks _).trans (by decide)

/-- Witness for C3 at a concrete roster and response table: one port
responding "5". -/
theorem claim_C3_aggregate_witness :
    ServerRs.aggregate_val_handler { client_ports := [3001] }
        (fun _ => some "5")
      = some ([3001].foldl (fun acc p => wadd acc ((fun _ => 5) p)) 0,
          [3001]) :=
  claim_C3_aggregate.2.1 [3001] (fun _ => some "5") (fun _ => 5)
    (by
      intro p hp
      refine ⟨"5", rfl, ?_⟩
      show ServerRs.parseU32 "5" = some 5
      decide)

/-- Claim C4: contrary to the claim, a `num_collaborators`/`port_list`
mismatch is not rejected as a malformed request.  With `port_list = [3001]`
and `num_collaborators = 2` the handler's `port_list.remove(1)` is an
out-of-bounds index (modelled `none`: the request aborts in a panic, no
client-error response); with `num_collaborators = 1` on a 2-element
`port_list` the handler silently succeeds, driving only the first client. -/
theorem claim_C4_mismatch_not_rejected :
    ServerRs.initialize_handler { client_ports := [] } [3001] 2 = none
    ∧ ServerRs.initialize_handler { client_ports := [] } [3001, 3002] 1
      = some ({ client_ports := [3001, 3002] }, [(3001, [3002], 0)],
          [3001, 3002]) := by
  exact ⟨rfl, rfl⟩

/-- Counterexample to C5 as stated: with one peer whose POST fails, the
handler still replies "Interaction successful" — byte-identical to the run
where the POST succeeds — so the send failure is not surfaced to the caller
(the claim's subtraction-before-send and no-rollback parts do hold: the final
masked value is `10 - 7` although the send failed). -/
theorem claim_C5_counterexample :
    (ClientRs.interact_with_others_handler 10 [3001] [7]
        (fun _ => false)).2.2 = "Interaction successful"
    ∧ ClientRs.interact_with_others_handler 10 [3001] [7] (fun _ => false)
      = ClientRs.interact_with_others_handler 10 [3001] [7] (fun _ => true)
    ∧ (ClientRs.interact_with_others_handler 10 [3001] [7]
        (fun _ => false)).1 = wsub 10 7 := by
  exact ⟨rfl, rfl, rfl⟩

/-- Claim C5 (amended): for each peer the drawn mask is subtracted from
`masked_value` immediately, before the outbound POST — the k-th send goes out
with the first k+1 subtractions already applied (`runningSubs`) — the
subtraction is never rolled back and each peer gets exactly one send (no
retry); but a failed send is NOT surfaced to the initiator: the handler's
entire output is a constant function of the send outcomes and the response is
always "Interaction successful". -/
theorem claim_C5_failure_policy (masked : Nat) (ports masks : List Nat)
    (f g : Nat → Bool) :
    ClientRs.interact_with_others_handler masked ports masks f
      = ClientRs.interact_with_others_handler masked ports masks g
    ∧ (ClientRs.interact_with_others_handler masked ports masks f).2.2
      = "Interaction successful"
    ∧ (ClientRs.interact_with_others_handler masked ports masks f).1
      = List.foldl wsub masked (masks.take ports.length)
    ∧ (ClientRs.interact_with_others_handler masked ports masks f).2.1.map
        (fun e => e.1) = ports.take masks.length
    ∧ (ClientRs.interact_with_others_handler masked ports masks f).2.1.map
        (fun e => e.2.2)
      = ClientRs.runningSubs masked (masks.take ports.length) := by
  refine ⟨rfl, rfl, ?_, ?_, ?_⟩
  · exact ClientRs.interactLoop_fst ports masked masks
  · exact (ClientRs.interactLoop_sends ports masked masks).1
  · exact (ClientRs.interactLoop_sends ports masked masks).2.2

/-- Claim C6: for a consistent request (`cnt` equals the roster length,
roster duplicate-free), `handlers::initialize` stores the received roster,
sends each roster client — in roster order, one at a time — one `/interact`
instruction whose peer list is the roster with that client removed (so never
the client itself) and whose count is `cnt - 1`, and both the stored roster
and the loop's restored roster equal the received one. -/
theorem claim_C6_roster_fanout (srv : ServerRs.Server) (ports : List Nat)
    (cnt : Nat) (hcnt : cnt = ports.length) (hnd : ports.Nodup) :
    ∃ msgs : List (Nat × List Nat × Nat),
      ServerRs.initialize_handler srv ports cnt
        = some ({ client_ports := ports }, msgs, ports)
      ∧ msgs.length = ports.length
      ∧ (∀ (k : Nat) (c : Nat) (rest : List Nat),
          MainRs.listRemove ports k = some (c, rest) →
          msgs[k]? = some (c, rest, cnt - 1))
      ∧ (∀ m ∈ msgs, m.1 ∉ m.2.1) := by
  subst hcnt
  obtain ⟨msgs, hloop, hlen, hget, hall⟩ :=
    ServerRs.initializeLoop_ok ports.length (List.range ports.length) ports
      (fun i hi => List.mem_range.mp hi)
  refine ⟨msgs, ?_, ?_, ?_, ?_⟩
  · simp only [ServerRs.initialize_handler, hloop]
  · simpa using hlen
  · intro k c rest hr
    have hk : k < ports.length := MainRs.listRemove_lt ports k c rest hr
    exact hget k k (List.getElem?_range hk) c rest hr
  · intro m hm
    obtain ⟨i, _, hri, _⟩ := hall m hm
    exact MainRs.listRemove_nodup ports i m.1 m.2.1 hri hnd

/-- Witness for C6: the concrete three-client roster 3001, 3002, 3003. -/
theorem claim_C6_roster_fanout_witness :
    ∃ msgs : List (Nat × List Nat × Nat),
      ServerRs.initialize_handler { client_ports := [] } [3001, 3002, 3003] 3
        = some ({ client_ports := [3001, 3002, 3003] }, msgs,
            [3001, 3002, 3003])
      ∧ msgs.length = 3
      ∧ (∀ (k : Nat) (c : Nat) (rest : List Nat),
          MainRs.listRemove [3001, 3002, 3003] k = some (c, rest) →
          msgs[k]? = some (c, rest, 2))
      ∧ (∀ m ∈ msgs, m.1 ∉ m.2.1) :=
  claim_C6_roster_fanout { client_ports := [] } [3001, 3002, 3003] 3 rfl
    (by decide)

/-- Counterexample to C7 as stated: at two peers, per-peer locking fails on
the interaction handler's trace — the lock is not acquired once per peer and
a send does happen while the lock is held. -/
theorem claim_C7_counterexample :
    ¬ ClientRs.perPeerLocking [3001, 3002] [5, 6] := by
  unfold ClientRs.perPeerLocking
  decide

/-- Claim C7 (amended): `shareValue` and `applyInboundMask` each take the
node's lock around a single operation with no network call under it, but
`runInteractionRound` acquires the lock exactly once for the entire round and
every POST to a peer happens while it is held, so concurrent inbound masks
cannot interleave anywhere within a round, not even between peer
iterations. -/
theorem claim_C7_locking (ports masks : List Nat) (m : Nat) :
    ClientRs.countAcquires (ClientRs.interact_trace ports masks) = 1
    ∧ (ports ≠ [] → masks ≠ [] →
        ClientRs.sendWhileLocked (ClientRs.interact_trace ports masks) 0
          = true)
    ∧ ClientRs.countAcquires (ClientRs.mask_by_adding_trace m) = 1
    ∧ ClientRs.sendWhileLocked (ClientRs.mask_by_adding_trace m) 0 = false
    ∧ ClientRs.countAcquires ClientRs.share_val_trace = 1
    ∧ ClientRs.sendWhileLocked ClientRs.share_val_trace 0 = false := by
  refine ⟨ClientRs.interact_trace_one_acquire ports masks, ?_, rfl, rfl,
    rfl, rfl⟩
  intro hp hm
  cases ports with
  | nil => exact absurd rfl hp
  | cons p ps =>
    cases masks with
    | nil => exact absurd rfl hm
    | cons m2 ms => exact ClientRs.interact_trace_send_under_lock p m2 ps ms

/-- Witness for C7 (amended) at one concrete peer: the POST happens under the
round-wide lock. -/
theorem claim_C7_locking_witness :
    ClientRs.sendWhileLocked (ClientRs.interact_trace [3001] [5]) 0 = true :=
  (claim_C7_locking [3001] [5] 0).2.1 (by decide) (by decide)

/-- Counterexample to C8 as stated: `main.rs`'s `Server` has a field besides
the roster — `aggregate_value` — and `aggregate` writes its result into it:
after one call on a server whose field held 0 the field holds 5, so an
aggregator field other than the roster does carry information out of an
aggregation call into the state seen by the next one. -/
theorem claim_C8_counterexample :
    ¬ ((MainRs.Server.aggregate
          (MainRs.Server.mk 0 [MainRs.Client.new "Client #1" 5])).2.aggregate_value
        = (MainRs.Server.mk 0
            [MainRs.Client.new "Client #1" 5]).aggregate_value) := by
  decide

/-- Claim C8 (amended): every `aggregate` call recomputes the sum from
scratch with its accumulator starting at 0 — the result depends only on the
clients, never on the `aggregate_value` a previous call left behind, and
calling `aggregate` again right away returns the same result while the
clients are untouched; the `aggregate_value` field, however, does persist: it
is overwritten with each call's result (a write-only cache, never read). -/
theorem claim_C8_no_hidden_accumulator (s t : MainRs.Server)
    (h : s.clients = t.clients) :
    (MainRs.Server.aggregate s).1 = (MainRs.Server.aggregate t).1
    ∧ (MainRs.Server.aggregate (MainRs.Server.aggregate s).2).1
      = (MainRs.Server.aggregate s).1
    ∧ (MainRs.Server.aggregate s).2.clients = s.clients
    ∧ (MainRs.Server.aggregate s).2.aggregate_value
      = (MainRs.Server.aggregate s).1 := by
  refine ⟨?_, ?_, rfl, rfl⟩
  · rw [MainRs.aggregate_fst, MainRs.aggregate_fst, h]
  · rw [MainRs.aggregate_fst, MainRs.aggregate_fst, MainRs.aggregate_clients]

/-- Witness for C8 (amended): two servers with the same client but different
`aggregate_value` residue return the same aggregate. -/
theorem claim_C8_no_hidden_accumulator_witness :
    (MainRs.Server.aggregate
        (MainRs.Server.mk 99 [MainRs.Client.new "Client #1" 5])).1
      = (MainRs.Server.aggregate
          (MainRs.Server.mk 0 [MainRs.Client.new "Client #1" 5])).1 :=
  (claim_C8_no_hidden_accumulator
    (MainRs.Server.mk 99 [MainRs.Client.new "Client #1" 5])
    (MainRs.Server.mk 0 [MainRs.Client.new "Client #1" 5]) rfl).1

/-- Claim C9: evidence for the code_bug verdict: with roster `[3001]`, an
unreachable client (no response: `res.unwrap()`) or a malformed body "oops"
(`parse::<u32>().unwrap()`) makes `aggregate_val` panic — modelled `none` —
instead of returning an explicit failure response to the caller. -/
theorem claim_C9_unwrap_panics :
    ServerRs.aggregate_val_handler { client_ports := [3001] }
        (fun _ => none) = none
    ∧ ServerRs.aggregate_val_handler { client_ports := [3001] }
        (fun _ => some "oops") = none := by
  constructor
  · rfl
  · decide

/-- Claim C10: with an empty roster — in particular on a fresh `new_Server`
before any initialize call — the aggregation loop contacts no client (for any
network behaviour) and returns 0; likewise `main.rs` `aggregate` returns 0 on
an empty client list. -/
theorem claim_C10_empty_roster :
    (∀ responses, ServerRs.aggregate_val_handler ServerRs.new_Server responses
        = some (0, []))
    ∧ (∀ responses,
        ServerRs.aggregate_val_handler { client_ports := [] } responses
          = some (0, []))
    ∧ ∀ a : Nat, (MainRs.Server.aggregate (MainRs.Server.mk a [])).1 = 0 := by
  exact ⟨fun _ => rfl, fun _ => rfl, fun _ => rfl⟩

end SecAgg
